import Mathlib

/-!
Shallow embedding of the rank-fusion engine and NDCG evaluator of the
`hybrid-js` repository (src/models/Fusion.ts and src/app.ts), together with
theorems settling the frozen claims about it.

Modelling conventions:
* JavaScript `number` scores, weights and ranks are modelled as exact
  rationals (`ℚ`).  All orderings the claims mention have comparison margins
  far above double-precision rounding error, so the rational model decides
  them the same way the floating-point code does.
* `Array.prototype.sort` with comparator `(a,b) => b.key - a.key` is a stable
  descending sort; it is modelled by the stable insertion sort `sortByDesc`.
* `Math.sqrt` (used only for the standard deviation in `dbsf`) is not
  rational-valued; it is passed to `dbsf` as an explicit function parameter
  `sqrt : ℚ → ℚ`, and theorems about concrete `dbsf` runs assume only
  rational interval bounds on the values `sqrt` takes at the two variances
  actually queried — bounds that the real `Math.sqrt` satisfies.
* The `assert` calls of `#validateInput` and `rrf` make construction and
  `rrf` fallible; they are modelled with `Option` (`none` = the assertion
  threw and no value was produced).
* The JS accumulator objects (`bordaScores` etc.) record key creation
  order; they are modelled as association lists seeded from the first score
  list's ids, updated in place by `bump`.  Validation guarantees every
  updated key is present; an absent key (which in JS would create a `NaN`
  entry) is modelled as a no-op, and is unreachable for validated instances.
* `Object.entries` does not enumerate an ordinary object's string keys
  purely in creation order: ECMAScript `[[OwnPropertyKeys]]` lists the keys
  that are canonical array indices (digit strings without a leading zero,
  value below `2^32 - 1`) first, in ascending numeric order, and only then
  the remaining string keys in creation order.  `jsEntries` models this
  enumeration, and each fusion method sorts `jsEntries` of its accumulator.
-/

/-- Mirrors `class Score` of Fusion.ts: a candidate id, its signal score and
its original MS Marco rank (`rank` defaults to 0 at the call sites that omit
it). -/
structure Score where
  id : String
  score : ℚ
  rank : ℚ
deriving DecidableEq, Repr

/-- Stable insertion of `x` into a list already sorted descending by `key`:
`x` moves past exactly the elements with strictly larger key, so equal-key
elements that were inserted earlier stay in front — the behaviour of the
stable JS `Array.prototype.sort` with comparator `(a,b) => b.key - a.key`. -/
def insertByDesc {α : Type} (key : α → ℚ) (x : α) : List α → List α
  | [] => [x]
  | y :: ys => if key y > key x then y :: insertByDesc key x ys else x :: y :: ys

/-- Stable descending sort by a rational key (model of
`arr.sort((a,b) => b.key - a.key)`). -/
def sortByDesc {α : Type} (key : α → ℚ) (l : List α) : List α :=
  l.foldr (insertByDesc key) []

/-- Insertion-order set of a list of ids, keeping first occurrences — the
key order of `new Set(this.scores[0].map(elm => elm.id))`. -/
def uniqueFirst : List String → List String
  | [] => []
  | x :: xs => x :: (uniqueFirst xs).filter (fun y => y ≠ x)

/-- Body of the `forEach` in `#validateInput`: for every score array, assert
`ids.size == scoreArr.length`, sort it in place descending by score, and
check that every reference id occurs among the sorted ids.  Returns the
in-place-sorted arrays paired with the derived rankings, or `none` if an
assertion threw. -/
def checkAll (ids : List String) : List (List Score) → Option (List (List Score) × List (List String))
  | [] => some ([], [])
  | arr :: rest =>
    if ids.length = arr.length then
      if ids.all (fun i => ((sortByDesc Score.score arr).map Score.id).contains i) then
        (checkAll ids rest).map
          (fun p => ((sortByDesc Score.score arr) :: p.1,
                     ((sortByDesc Score.score arr).map Score.id) :: p.2))
      else none
    else none

/-- Model of `Fusion.#validateInput`: checks
`scores.length == weights.length`, takes the id set of the first score list,
and runs `checkAll`.  An empty `scores` always fails in JS — either the
length assert throws, or (when `weights` is also empty) the subsequent
`this.scores[0].map` throws a `TypeError` — so it is mapped to `none`
directly.  The first component of the result is the post-construction
contents of the caller's (in-place sorted) score arrays, the second the
derived rankings. -/
def validateInput : List (List Score) → List ℚ →
    Option (List (List Score) × List (List String))
  | [], _ => none
  | s0 :: rest, weights =>
    if (s0 :: rest).length = weights.length then
      checkAll (uniqueFirst (s0.map Score.id)) (s0 :: rest)
    else none

/-- State of a successfully constructed `Fusion` instance: its `scores`
field (the caller's arrays, already sorted in place by the constructor), its
`weights`, and the cached `rankings`. -/
structure Fusion where
  scores : List (List Score)
  weights : List ℚ
  rankings : List (List String)
deriving DecidableEq, Repr

/-- Model of `new Fusion(scores, weights)`: `none` when validation threw. -/
def mkFusion (scores : List (List Score)) (weights : List ℚ) : Option Fusion :=
  (validateInput scores weights).map (fun p => ⟨p.1, weights, p.2⟩)

/-- Model of `new Fusion(scores)` with the defaulted weight vector
`new Array(scores.length).fill(1)`. -/
def mkFusionDefault (scores : List (List Score)) : Option Fusion :=
  mkFusion scores (List.replicate scores.length 1)

/-- Model of `m[key] += v` on a JS accumulator object whose keys were seeded
in advance: add `v` at the unique entry with key `key`.  (On an absent key
JS would create a `NaN` entry; validation makes that unreachable, and the
model leaves the list unchanged.) -/
def bump : List (String × ℚ) → String → ℚ → List (String × ℚ)
  | [], _, _ => []
  | (k, x) :: rest, key, v =>
    if k = key then (k, x + v) :: rest else (k, x) :: bump rest key v

/-- Numeric value of a list of decimal digit characters. -/
def digitsVal (l : List Char) : ℕ := l.foldl (fun a c => 10 * a + (c.toNat - 48)) 0

/-- ECMAScript array-index test for a property key: a non-empty canonical
digit string (no leading zero unless the string is `"0"`) whose value is
below `2^32 - 1`, returning the index. -/
def canonicalIndex (s : String) : Option ℕ :=
  if s.data ≠ [] ∧ s.data.all Char.isDigit = true ∧
      (s.data = ['0'] ∨ s.data.headD '0' ≠ '0') ∧ digitsVal s.data < 4294967295 then
    some (digitsVal s.data)
  else none

/-- Insertion into a list sorted ascending by a natural-number key. -/
def insertByIdx {α : Type} (key : α → ℕ) (x : α) : List α → List α
  | [] => [x]
  | y :: ys => if key y < key x then y :: insertByIdx key x ys else x :: y :: ys

/-- Ascending insertion sort by a natural-number key (used only on keys
that are pairwise distinct canonical indices). -/
def sortByIdx {α : Type} (key : α → ℕ) (l : List α) : List α :=
  l.foldr (insertByIdx key) []

/-- Model of `Object.entries` on an accumulator: the keys that are
canonical array indices come first, in ascending numeric order, then the
remaining keys in creation order — the ECMAScript own-property-key
enumeration the source relies on when it sorts the entries. -/
def jsEntries (m : List (String × ℚ)) : List (String × ℚ) :=
  sortByIdx (fun p => (canonicalIndex p.1).getD 0)
    (m.filter (fun p => (canonicalIndex p.1).isSome))
  ++ m.filter (fun p => !(canonicalIndex p.1).isSome)

/-- Accumulator of `Fusion.borda`: seed every id of `rankings[0]` with 0,
then for each ranking `i` give the id at 0-indexed position `j` the
contribution `weights[i] * (rankings[i].length - j)`. -/
def bordaAcc (f : Fusion) : List (String × ℚ) :=
  (f.rankings.enum).foldl
    (fun m p =>
      (p.2.enum).foldl
        (fun m q => bump m q.2 (f.weights.getD p.1 0 * ((p.2.length : ℚ) - (q.1 : ℚ))))
        m)
    ((f.rankings.headD []).map (fun i => (i, (0 : ℚ))))

/-- Model of `Fusion.borda`: enumerate the accumulated scores as
`Object.entries` does, sort them descending (stable) and return the ids. -/
def Fusion.borda (f : Fusion) : List String :=
  (sortByDesc Prod.snd (jsEntries (bordaAcc f))).map Prod.fst

/-- Accumulator of `Fusion.dbsf`: per raw score list, population mean and
standard deviation (the square root abstracted as the parameter `sqrt`),
and per id the weighted z-score `(score - mean) / std` summed over the
signals.  The folds mirror the `reduce` calls of the source. -/
def dbsfAcc (f : Fusion) (sqrt : ℚ → ℚ) : List (String × ℚ) :=
  (f.scores.enum).foldl
    (fun m p =>
      let mean := p.2.foldl (fun a b => a + b.score / (p.2.length : ℚ)) 0
      let std := sqrt (p.2.foldl (fun a b => a + (b.score - mean) ^ 2) 0 / (p.2.length : ℚ))
      p.2.foldl
        (fun m elm => bump m elm.id (f.weights.getD p.1 0 * ((elm.score - mean) / std)))
        m)
    ((f.scores.headD []).map (fun s => (s.id, (0 : ℚ))))

/-- Model of `Fusion.dbsf`, with `Math.sqrt` as the parameter `sqrt`:
`Object.entries` enumeration of the accumulator, stably sorted. -/
def Fusion.dbsf (f : Fusion) (sqrt : ℚ → ℚ) : List String :=
  (sortByDesc Prod.snd (jsEntries (dbsfAcc f sqrt))).map Prod.fst

/-- Accumulator of `Fusion.rrf`: seed from `rankings[0]`, and give the id at
0-indexed position `j` of ranking `i` the contribution
`weights[i] * 1 / (j + k)`. -/
def rrfAcc (f : Fusion) (k : ℚ) : List (String × ℚ) :=
  (f.rankings.enum).foldl
    (fun m p =>
      (p.2.enum).foldl
        (fun m q => bump m q.2 (f.weights.getD p.1 0 * 1 / ((q.1 : ℚ) + k)))
        m)
    ((f.rankings.headD []).map (fun i => (i, (0 : ℚ))))

/-- The ordering `Fusion.rrf` produces once its `assert(k > 0)` passed:
`Object.entries` enumeration of the accumulator, stably sorted. -/
def Fusion.rrfCore (f : Fusion) (k : ℚ) : List String :=
  (sortByDesc Prod.snd (jsEntries (rrfAcc f k))).map Prod.fst

/-- Model of `Fusion.rrf`: `assert(k > 0)` throws (`none`) on a
non-positive `k`, otherwise the sorted accumulated reciprocal ranks. -/
def Fusion.rrf (f : Fusion) (k : ℚ) : Option (List String) :=
  if 0 < k then some (f.rrfCore k) else none

/-- Model of `scoreArr.reduce((a,b) => a > b.score ? a : b.score, -Infinity)`:
the `-Infinity` seed is `none`, which any real score replaces. -/
def jsMaxScore (l : List Score) : Option ℚ :=
  l.foldl
    (fun a b => match a with
      | none => some b.score
      | some x => if x > b.score then some x else some b.score)
    none

/-- Model of `scoreArr.reduce((a,b) => a < b.score ? a : b.score, Infinity)`. -/
def jsMinScore (l : List Score) : Option ℚ :=
  l.foldl
    (fun a b => match a with
      | none => some b.score
      | some x => if x < b.score then some x else some b.score)
    none

/-- Accumulator of `Fusion.rsf`: per raw score list, min and max, and per id
the weighted min-max normalised score summed over the signals.  (The
`getD 0` defaults are touched only by an empty score list, whose inner
`forEach` never runs, so they are unobservable.) -/
def rsfAcc (f : Fusion) : List (String × ℚ) :=
  (f.scores.enum).foldl
    (fun m p =>
      let mx := (jsMaxScore p.2).getD 0
      let mn := (jsMinScore p.2).getD 0
      p.2.foldl
        (fun m elm => bump m elm.id (f.weights.getD p.1 0 * ((elm.score - mn) / (mx - mn))))
        m)
    ((f.scores.headD []).map (fun s => (s.id, (0 : ℚ))))

/-- Model of `Fusion.rsf`: `Object.entries` enumeration of the
accumulator, stably sorted. -/
def Fusion.rsf (f : Fusion) : List String :=
  (sortByDesc Prod.snd (jsEntries (rsfAcc f))).map Prod.fst

/-- Mirrors `type RankedScore` of types.ts. -/
structure RankedScore where
  id : String
  score : ℚ
  rank : ℚ
deriving DecidableEq, Repr

/-- Mirrors `type Relevance` of types.ts. -/
structure Relevance where
  pid : String
  relevance : ℚ
deriving DecidableEq, Repr

/-- Mirrors `type SearchResult` of types.ts. -/
structure SearchResult where
  qid : String
  scores : List RankedScore
deriving DecidableEq, Repr

/-- Mirrors `type NdcgResultType` of types.ts. -/
structure NdcgResult where
  qid : String
  ndcg : ℚ
deriving DecidableEq, Repr

/-- Model of `formatFused` of app.ts.  The loop writes
`outArr[i] = {id: inArr[i], score: j, rank: match.rank}` with `j = N - i`
when `orig.find` matches, and skips the index otherwise, leaving a sparse
hole that downstream iteration skips; a hole is modelled as `none`. -/
def formatFused (inArr : List String) (orig : List RankedScore) :
    List (Option RankedScore) :=
  (inArr.enum).map
    (fun p =>
      (orig.find? (fun elm => elm.id = p.2)).map
        (fun m => ⟨p.2, (inArr.length : ℚ) - (p.1 : ℚ), m.rank⟩))

/-- Model of the `calcDCG` reducer of app.ts
(`acc + (relevance² - 1) / log2(index + 2)`); `Math.log2` is abstracted as
the parameter `log2`, which none of the settled claims needs to evaluate. -/
def calcDCG (log2 : ℕ → ℚ) (acc : ℚ) (elm : Relevance) (index : ℕ) : ℚ :=
  acc + (elm.relevance ^ 2 - 1) / log2 (index + 2)

/-- The `predicted` list built inside `ndcg`: a relevance gain
`scores.length - rank + 1` per entry, in predicted order. -/
def predictedRel (sr : SearchResult) : List Relevance :=
  sr.scores.map (fun r => ⟨r.id, (sr.scores.length : ℚ) - r.rank + 1⟩)

/-- A DCG sum over a relevance list in its given order (the `reduce` over
`calcDCG` with the element index). -/
def dcgVal (log2 : ℕ → ℚ) (l : List Relevance) : ℚ :=
  (l.enum).foldl (fun acc p => calcDCG log2 acc p.2 p.1) 0

/-- Model of `parseFloat(x.toFixed(4))`: round to the nearest multiple of
`1/10000`, ties toward the larger value, as the `toFixed` spec does. -/
def round4 (q : ℚ) : ℚ := (round (q * 10000) : ℚ) / 10000

/-- Model of `ndcg` of app.ts: per search result, the predicted relevance
gains, the ground truth obtained by stably sorting a copy descending by
relevance, and `DCG / IDCG` rounded to 4 decimals.  (A zero IDCG yields
`NaN` in JS; in `ℚ` the division yields 0 — both differ from 1, which is
all the claims about this case use.) -/
def ndcg (log2 : ℕ → ℚ) (searchResults : List SearchResult) : List NdcgResult :=
  searchResults.map
    (fun sr =>
      let predicted := predictedRel sr
      let groundTruth := sortByDesc Relevance.relevance predicted
      ⟨sr.qid, round4 (dcgVal log2 predicted / dcgVal log2 groundTruth)⟩)

/-- Stand-in function usable where a concrete `log2` argument is needed and
its values are irrelevant (floor of the binary logarithm). -/
def log2Nat (n : ℕ) : ℚ := (Nat.log2 n : ℚ)

/-- The literal two-signal, five-id input of the fusion test suite and the
doc-comment examples, in source order (TFIDF-like list first). -/
def demoScores : List (List Score) :=
  [[⟨"P1", 1874/10000, 0⟩, ⟨"P2", 1241/10000, 0⟩, ⟨"P3", 810/10000, 0⟩,
    ⟨"P4", 2077/10000, 0⟩, ⟨"P5", 597/10000, 0⟩],
   [⟨"P1", 6761/10000, 0⟩, ⟨"P2", 6549/10000, 0⟩, ⟨"P3", 7479/10000, 0⟩,
    ⟨"P4", 6304/10000, 0⟩, ⟨"P5", 6868/10000, 0⟩]]

/-- The `Fusion` instance the demo input constructs: both caller arrays
sorted in place descending by score, default weights, cached rankings. -/
def demoFusion : Fusion :=
  ⟨[[⟨"P4", 2077/10000, 0⟩, ⟨"P1", 1874/10000, 0⟩, ⟨"P2", 1241/10000, 0⟩,
     ⟨"P3", 810/10000, 0⟩, ⟨"P5", 597/10000, 0⟩],
    [⟨"P3", 7479/10000, 0⟩, ⟨"P5", 6868/10000, 0⟩, ⟨"P1", 6761/10000, 0⟩,
     ⟨"P2", 6549/10000, 0⟩, ⟨"P4", 6304/10000, 0⟩]],
   [1, 1],
   [["P4", "P1", "P2", "P3", "P5"], ["P3", "P5", "P1", "P2", "P4"]]⟩

/-- Population variance of the demo TFIDF-like list, exactly as the `dbsf`
fold computes it. -/
def demoVar1 : ℚ := 4172587/1250000000

/-- Population variance of the demo Cosine-like list. -/
def demoVar2 : ℚ := 1939747/1250000000

/-- The contents of the caller's score arrays after `new Fusion(scores,
weights)` returns: construction aliases them and sorts each in place, so
this is what the caller observes afterwards (`none` when construction
threw before returning). -/
def constructorScores (scores : List (List Score)) (weights : List ℚ) :
    Option (List (List Score)) :=
  (validateInput scores weights).map Prod.fst

/-- A concrete rational stand-in for `Math.sqrt`, exact enough at the two
demo variances (its other values are irrelevant to any theorem using it). -/
def sqrtStub : ℚ → ℚ := fun q =>
  if q = demoVar1 then 5777/100000 else if q = demoVar2 then 3939/100000 else 0

/-- A two-signal input producing a Borda tie between ids `B` and `A`, with
`B` ahead of `A` in the first signal's derived ranking. -/
def tieScores : List (List Score) :=
  [[⟨"B", 2, 0⟩, ⟨"A", 1, 0⟩], [⟨"A", 2, 0⟩, ⟨"B", 1, 0⟩]]

/-- The `Fusion` instance `tieScores` constructs. -/
def tieFusion : Fusion :=
  ⟨[[⟨"B", 2, 0⟩, ⟨"A", 1, 0⟩], [⟨"A", 2, 0⟩, ⟨"B", 1, 0⟩]],
   [1, 1],
   [["B", "A"], ["A", "B"]]⟩

/-- A two-signal input with array-index-like ids `"2"` and `"1"` producing
a Borda tie, with `"2"` ahead of `"1"` in the first signal's derived
ranking: `Object.entries` then enumerates `"1"` before `"2"` regardless of
creation order. -/
def numScores : List (List Score) :=
  [[⟨"2", 2, 0⟩, ⟨"1", 1, 0⟩], [⟨"1", 2, 0⟩, ⟨"2", 1, 0⟩]]

/-- The `Fusion` instance `numScores` constructs. -/
def numFusion : Fusion :=
  ⟨[[⟨"2", 2, 0⟩, ⟨"1", 1, 0⟩], [⟨"1", 2, 0⟩, ⟨"2", 1, 0⟩]],
   [1, 1],
   [["2", "1"], ["1", "2"]]⟩

/-- A single-signal input whose scores are all identical (a degenerate
distribution: zero variance and zero range). -/
def degScores : List (List Score) := [[⟨"A", 5, 0⟩, ⟨"B", 5, 0⟩]]

/-- The `Fusion` instance `degScores` constructs. -/
def degFusion : Fusion := ⟨[[⟨"A", 5, 0⟩, ⟨"B", 5, 0⟩]], [1], [["A", "B"]]⟩

/-- A concrete rational stand-in usable for the `log2` parameter where a
theorem only needs some fixed positive-valued function; the NDCG claims
settled here never depend on its closeness to the real `Math.log2` (the
ratios involved are `1`, or have every numerator term equal to `0`). -/
def log2Stub (n : ℕ) : ℚ := (n : ℚ)

/-- Inserting an element permutes consing it on. -/
theorem insertByDesc_perm {α : Type} (key : α → ℚ) (x : α) (l : List α) :
    (insertByDesc key x l).Perm (x :: l) := by
  induction l with
  | nil => simp [insertByDesc]
  | cons y ys ih =>
    rw [insertByDesc]
    by_cases h : key y > key x
    · rw [if_pos h]
      exact (List.Perm.cons y ih).trans (List.Perm.swap x y ys)
    · rw [if_neg h]

/-- The stable descending sort is a permutation of its input. -/
theorem sortByDesc_perm {α : Type} (key : α → ℚ) (l : List α) :
    (sortByDesc key l).Perm l := by
  induction l with
  | nil => simp [sortByDesc]
  | cons x xs ih =>
    exact ((insertByDesc_perm key x (sortByDesc key xs)).trans (List.Perm.cons x ih))

/-- Insertion preserves descending sortedness. -/
theorem insertByDesc_pairwise {α : Type} (key : α → ℚ) (x : α) (l : List α)
    (h : l.Pairwise (fun a b => key b ≤ key a)) :
    (insertByDesc key x l).Pairwise (fun a b => key b ≤ key a) := by
  induction l with
  | nil => simp [insertByDesc]
  | cons y ys ih =>
    rcases List.pairwise_cons.mp h with ⟨hy, hys⟩
    rw [insertByDesc]
    by_cases hcmp : key y > key x
    · rw [if_pos hcmp]
      refine List.pairwise_cons.mpr ⟨?_, ih hys⟩
      intro b hb
      rcases List.mem_cons.mp ((insertByDesc_perm key x ys).mem_iff.mp hb) with rfl | hbys
      · exact le_of_lt hcmp
      · exact hy b hbys
    · rw [if_neg hcmp]
      push_neg at hcmp
      refine List.pairwise_cons.mpr ⟨?_, h⟩
      intro b hb
      rcases List.mem_cons.mp hb with rfl | hbys
      · exact hcmp
      · exact le_trans (hy b hbys) hcmp

/-- The stable descending sort sorts: adjacent keys never increase. -/
theorem sortByDesc_pairwise {α : Type} (key : α → ℚ) (l : List α) :
    (sortByDesc key l).Pairwise (fun a b => key b ≤ key a) := by
  induction l with
  | nil => simp [sortByDesc]
  | cons x xs ih => exact insertByDesc_pairwise key x (sortByDesc key xs) ih

/-- Inserting an element whose key is at least every key of the list puts it
in front. -/
theorem insertByDesc_of_le {α : Type} (key : α → ℚ) (x : α) (l : List α)
    (h : ∀ b ∈ l, key b ≤ key x) : insertByDesc key x l = x :: l := by
  cases l with
  | nil => rfl
  | cons y ys =>
    rw [insertByDesc, if_neg (not_lt.mpr (h y (List.mem_cons_self y ys)))]

/-- A list already sorted descending is a fixed point of the sort — the
stability of the underlying sort, at full strength for sorted inputs. -/
theorem sortByDesc_of_pairwise {α : Type} (key : α → ℚ) (l : List α)
    (h : l.Pairwise (fun a b => key b ≤ key a)) : sortByDesc key l = l := by
  induction l with
  | nil => rfl
  | cons x xs ih =>
    rcases List.pairwise_cons.mp h with ⟨hx, hxs⟩
    have : sortByDesc key (x :: xs) = insertByDesc key x (sortByDesc key xs) := rfl
    rw [this, ih hxs, insertByDesc_of_le key x xs hx]

/-- Insertion keeps the elements of any one key value in their previous
relative order, with the new element first: the elements it skips all have
strictly larger keys. -/
theorem insertByDesc_filter {α : Type} (key : α → ℚ) (x : α) (l : List α) (q : ℚ) :
    (insertByDesc key x l).filter (fun a => decide (key a = q)) =
      if key x = q then x :: l.filter (fun a => decide (key a = q))
      else l.filter (fun a => decide (key a = q)) := by
  induction l with
  | nil => by_cases h : key x = q <;> simp [insertByDesc, h]
  | cons y ys ih =>
    rw [insertByDesc]
    by_cases hcmp : key y > key x
    · rw [if_pos hcmp]
      by_cases hx : key x = q
      · have hy : ¬ key y = q := by rw [← hx]; exact (ne_of_gt hcmp)
        simp [List.filter_cons, hx, hy, ih]
      · simp [List.filter_cons, hx, ih]
    · rw [if_neg hcmp]
      by_cases hx : key x = q <;> simp [List.filter_cons, hx]

/-- Stability of the sort, phrased per key value: restricted to any one key
value, the sorted list is the input list. -/
theorem sortByDesc_filter {α : Type} (key : α → ℚ) (l : List α) (q : ℚ) :
    (sortByDesc key l).filter (fun a => decide (key a = q)) =
      l.filter (fun a => decide (key a = q)) := by
  induction l with
  | nil => rfl
  | cons x xs ih =>
    have : sortByDesc key (x :: xs) = insertByDesc key x (sortByDesc key xs) := rfl
    rw [this, insertByDesc_filter]
    by_cases hx : key x = q <;> simp [List.filter_cons, hx, ih]

/-- A permutation between a descending-sorted list and a strictly-descending
list is an equality: the strictly sorted arrangement of distinct keys is
unique among sorted ones. -/
theorem eq_of_perm_sorted_strict {α : Type} (key : α → ℚ) :
    ∀ (l l' : List α), l.Perm l' → l.Pairwise (fun a b => key b ≤ key a) →
      l'.Pairwise (fun a b => key b < key a) → l = l' := by
  intro l l'
  induction l' generalizing l with
  | nil => intro hp _ _; exact hp.eq_nil
  | cons x rest ih =>
    intro hp hl hl'
    rcases List.pairwise_cons.mp hl' with ⟨hx, hrest⟩
    cases l with
    | nil => exact absurd hp.symm.eq_nil (by simp)
    | cons y ys =>
      rcases List.pairwise_cons.mp hl with ⟨hy, hys⟩
      have hxy : y = x := by
        by_contra hne
        have hxl : x ∈ y :: ys := hp.symm.mem_iff.mp (List.mem_cons_self x rest)
        have hyl : y ∈ x :: rest := hp.mem_iff.mp (List.mem_cons_self y ys)
        have h1 : key x ≤ key y :=
          hy x (by rcases List.mem_cons.mp hxl with h | h; exact absurd h.symm hne; exact h)
        have h2 : key y < key x :=
          hx y (by rcases List.mem_cons.mp hyl with h | h; exact absurd h hne; exact h)
        exact absurd h1 (not_le.mpr h2)
      subst hxy
      have : ys.Perm rest := hp.cons_inv
      rw [ih ys this hys hrest]

/-- An in-place `+=` update never changes the accumulator's key sequence. -/
theorem bump_keys (m : List (String × ℚ)) (key : String) (v : ℚ) :
    (bump m key v).map Prod.fst = m.map Prod.fst := by
  induction m with
  | nil => rfl
  | cons p rest ih =>
    rw [bump]
    by_cases h : p.1 = key
    · rw [if_pos h]; simp
    · rw [if_neg h]; simp [ih]

/-- A fold whose every step preserves the key sequence preserves it
overall. -/
theorem keys_foldl {β : Type} (g : List (String × ℚ) → β → List (String × ℚ))
    (h : ∀ m b, (g m b).map Prod.fst = m.map Prod.fst) (l : List β) :
    ∀ init : List (String × ℚ), (l.foldl g init).map Prod.fst = init.map Prod.fst := by
  induction l with
  | nil => intro init; rfl
  | cons b bs ih => intro init; rw [List.foldl_cons, ih, h]

/-- The Borda accumulator's keys are exactly `rankings[0]`, in order. -/
theorem bordaAcc_keys (f : Fusion) : (bordaAcc f).map Prod.fst = f.rankings.headD [] := by
  have hstep : ∀ (m : List (String × ℚ)) (p : ℕ × List String),
      (List.foldl
        (fun m q => bump m q.2 (f.weights.getD p.1 0 * ((p.2.length : ℚ) - (q.1 : ℚ))))
        m p.2.enum).map Prod.fst = m.map Prod.fst :=
    fun m p => keys_foldl _ (fun m (q : ℕ × String) => bump_keys m q.2 _) _ m
  unfold bordaAcc
  refine Eq.trans (keys_foldl _ hstep _ _) ?_
  rw [List.map_map]
  have hcomp : (Prod.fst ∘ fun i : String => (i, (0 : ℚ))) = id := rfl
  rw [hcomp, List.map_id]

/-- The DBSF accumulator's keys are the ids of `scores[0]`, in order. -/
theorem dbsfAcc_keys (f : Fusion) (sqrt : ℚ → ℚ) :
    (dbsfAcc f sqrt).map Prod.fst = (f.scores.headD []).map Score.id := by
  have hstep : ∀ (m : List (String × ℚ)) (p : ℕ × List Score),
      ((let mean := List.foldl (fun a b => a + b.score / (p.2.length : ℚ)) 0 p.2
        let std := sqrt
          (List.foldl (fun a b => a + (b.score - mean) ^ 2) 0 p.2 / (p.2.length : ℚ))
        List.foldl
          (fun m elm => bump m elm.id (f.weights.getD p.1 0 * ((elm.score - mean) / std)))
          m p.2).map Prod.fst) = m.map Prod.fst :=
    fun m p => keys_foldl _ (fun m (e : Score) => bump_keys m e.id _) _ m
  unfold dbsfAcc
  refine Eq.trans (keys_foldl _ hstep _ _) ?_
  simp

/-- The RRF accumulator's keys are exactly `rankings[0]`, in order. -/
theorem rrfAcc_keys (f : Fusion) (k : ℚ) :
    (rrfAcc f k).map Prod.fst = f.rankings.headD [] := by
  have hstep : ∀ (m : List (String × ℚ)) (p : ℕ × List String),
      (List.foldl
        (fun m q => bump m q.2 (f.weights.getD p.1 0 * 1 / ((q.1 : ℚ) + k)))
        m p.2.enum).map Prod.fst = m.map Prod.fst :=
    fun m p => keys_foldl _ (fun m (q : ℕ × String) => bump_keys m q.2 _) _ m
  unfold rrfAcc
  refine Eq.trans (keys_foldl _ hstep _ _) ?_
  rw [List.map_map]
  have hcomp : (Prod.fst ∘ fun i : String => (i, (0 : ℚ))) = id := rfl
  rw [hcomp, List.map_id]

/-- The RSF accumulator's keys are the ids of `scores[0]`, in order. -/
theorem rsfAcc_keys (f : Fusion) :
    (rsfAcc f).map Prod.fst = (f.scores.headD []).map Score.id := by
  have hstep : ∀ (m : List (String × ℚ)) (p : ℕ × List Score),
      ((let mx := (jsMaxScore p.2).getD 0
        let mn := (jsMinScore p.2).getD 0
        List.foldl
          (fun m elm => bump m elm.id (f.weights.getD p.1 0 * ((elm.score - mn) / (mx - mn))))
          m p.2).map Prod.fst) = m.map Prod.fst :=
    fun m p => keys_foldl _ (fun m (e : Score) => bump_keys m e.id _) _ m
  unfold rsfAcc
  refine Eq.trans (keys_foldl _ hstep _ _) ?_
  simp

/-- Sorting an accumulator and projecting the keys permutes the key
sequence. -/
theorem sorted_fst_perm (m : List (String × ℚ)) :
    ((sortByDesc Prod.snd m).map Prod.fst).Perm (m.map Prod.fst) :=
  (sortByDesc_perm Prod.snd m).map Prod.fst

/-- Ascending-index insertion permutes consing the element on. -/
theorem insertByIdx_perm {α : Type} (key : α → ℕ) (x : α) (l : List α) :
    (insertByIdx key x l).Perm (x :: l) := by
  induction l with
  | nil => simp [insertByIdx]
  | cons y ys ih =>
    rw [insertByIdx]
    by_cases h : key y < key x
    · rw [if_pos h]
      exact (List.Perm.cons y ih).trans (List.Perm.swap x y ys)
    · rw [if_neg h]

/-- The ascending-index sort is a permutation of its input. -/
theorem sortByIdx_perm {α : Type} (key : α → ℕ) (l : List α) :
    (sortByIdx key l).Perm l := by
  induction l with
  | nil => simp [sortByIdx]
  | cons x xs ih =>
    exact ((insertByIdx_perm key x (sortByIdx key xs)).trans (List.Perm.cons x ih))

/-- `Object.entries` enumeration permutes the accumulator: it reorders
entries but neither adds nor drops any. -/
theorem jsEntries_perm (m : List (String × ℚ)) : (jsEntries m).Perm m := by
  refine List.Perm.trans ?_ (List.filter_append_perm (fun p => (canonicalIndex p.1).isSome) m)
  exact (sortByIdx_perm _ _).append_right _

/-- On an accumulator none of whose keys is an array index,
`Object.entries` enumerates in creation order. -/
theorem jsEntries_of_not_index (m : List (String × ℚ))
    (h : ∀ p ∈ m, canonicalIndex p.1 = none) : jsEntries m = m := by
  have h1 : m.filter (fun p => (canonicalIndex p.1).isSome) = [] := by
    rw [List.filter_eq_nil_iff]
    intro p hp
    rw [h p hp]
    simp
  have h2 : m.filter (fun p => !(canonicalIndex p.1).isSome) = m := by
    rw [List.filter_eq_self]
    intro p hp
    rw [h p hp]
    rfl
  rw [jsEntries, h1, h2]
  rfl

/-- Enumerating, sorting and projecting the keys of an accumulator permutes
its key sequence. -/
theorem entries_sorted_fst_perm (m : List (String × ℚ)) :
    ((sortByDesc Prod.snd (jsEntries m)).map Prod.fst).Perm (m.map Prod.fst) :=
  (sorted_fst_perm (jsEntries m)).trans ((jsEntries_perm m).map Prod.fst)

/-- The insertion-order set of a list has no duplicates. -/
theorem uniqueFirst_nodup (l : List String) : (uniqueFirst l).Nodup := by
  induction l with
  | nil => simp [uniqueFirst]
  | cons x xs ih =>
    rw [uniqueFirst]
    refine List.nodup_cons.mpr ⟨?_, List.Nodup.filter _ ih⟩
    intro hx
    have := List.of_mem_filter hx
    simp at this

/-- Membership in the insertion-order set is membership in the list. -/
theorem mem_uniqueFirst (l : List String) (a : String) :
    a ∈ uniqueFirst l ↔ a ∈ l := by
  induction l with
  | nil => simp [uniqueFirst]
  | cons x xs ih =>
    rw [uniqueFirst]
    by_cases hax : a = x
    · subst hax; simp
    · simp [List.mem_filter, hax, ih]

/-- Unfolding a successful run of the per-array validation loop: the
returned arrays are the in-place-sorted inputs, the rankings are their id
projections, and every array passed both asserts (size match against the
reference id set, and containment of every reference id). -/
theorem checkAll_inv (ids : List String) :
    ∀ (arrs : List (List Score)) (p : List (List Score) × List (List String)),
      checkAll ids arrs = some p →
      p.1 = arrs.map (sortByDesc Score.score) ∧
      p.2 = arrs.map (fun a => (sortByDesc Score.score a).map Score.id) ∧
      ∀ a ∈ arrs, ids.length = a.length ∧
        ∀ i ∈ ids, i ∈ (sortByDesc Score.score a).map Score.id := by
  intro arrs
  induction arrs with
  | nil =>
    intro p hp
    rw [checkAll] at hp
    cases hp
    simp
  | cons a rest ih =>
    intro p hp
    rw [checkAll] at hp
    by_cases h1 : ids.length = a.length
    · rw [if_pos h1] at hp
      by_cases h2 : (ids.all (fun i => ((sortByDesc Score.score a).map Score.id).contains i)) = true
      · rw [if_pos h2] at hp
        rcases Option.map_eq_some'.mp hp with ⟨q, hq, rfl⟩
        rcases ih q hq with ⟨e1, e2, hall⟩
        refine ⟨by simp [e1], by simp [e2], ?_⟩
        intro b hb
        rcases List.mem_cons.mp hb with rfl | hbr
        · refine ⟨h1, ?_⟩
          intro i hi
          have := List.all_eq_true.mp h2 i hi
          exact List.mem_of_elem_eq_true this
        · exact hall b hbr
      · rw [if_neg h2] at hp; cases hp
    · rw [if_neg h1] at hp; cases hp

/-- Everything a successful construction guarantees about the resulting
`Fusion` instance: the field contents, the cached-rankings invariant, and
the shared nodup id set every input list is a permutation of. -/
theorem mkFusion_inv (s : List (List Score)) (w : List ℚ) (f : Fusion)
    (h : mkFusion s w = some f) :
    s.length = w.length ∧ s ≠ [] ∧
    f.scores = s.map (sortByDesc Score.score) ∧
    f.weights = w ∧
    f.rankings = f.scores.map (List.map Score.id) ∧
    (f.rankings.headD []).Nodup ∧
    (∀ a ∈ s, (a.map Score.id).Perm (f.rankings.headD [])) := by
  rcases Option.map_eq_some'.mp h with ⟨p, hp, rfl⟩
  cases hs : s with
  | nil => rw [hs, validateInput] at hp; cases hp
  | cons s0 rest =>
    subst hs
    rw [validateInput] at hp
    by_cases hlen : (s0 :: rest).length = w.length
    · rw [if_pos hlen] at hp
      rcases checkAll_inv _ _ _ hp with ⟨e1, e2, hall⟩
      have hids_nodup : (uniqueFirst (s0.map Score.id)).Nodup := uniqueFirst_nodup _
      have hperm : ∀ a ∈ s0 :: rest,
          ((sortByDesc Score.score a).map Score.id).Perm (uniqueFirst (s0.map Score.id)) := by
        intro a ha
        rcases hall a ha with ⟨hlen2, hsub⟩
        have hsb : List.Subperm (uniqueFirst (s0.map Score.id))
            ((sortByDesc Score.score a).map Score.id) :=
          hids_nodup.subperm (fun i hi => hsub i hi)
        have hl : ((sortByDesc Score.score a).map Score.id).length ≤
            (uniqueFirst (s0.map Score.id)).length := by
          rw [List.length_map, (sortByDesc_perm Score.score a).length_eq, ← hlen2]
        exact (hsb.perm_of_length_le hl).symm
      have hhead : p.2.headD [] = (sortByDesc Score.score s0).map Score.id := by
        rw [e2]; rfl
      refine ⟨hlen, by simp, by rw [e1], rfl, ?_, ?_, ?_⟩
      · rw [e1, e2, List.map_map]; rfl
      · show (p.2.headD []).Nodup
        rw [hhead]
        exact ((hperm s0 (List.mem_cons_self s0 rest)).nodup_iff).mpr hids_nodup
      · intro a ha
        show (a.map Score.id).Perm (p.2.headD [])
        rw [hhead]
        have h1 : (a.map Score.id).Perm ((sortByDesc Score.score a).map Score.id) :=
          ((sortByDesc_perm Score.score a).map Score.id).symm
        exact h1.trans ((hperm a ha).trans
          (hperm s0 (List.mem_cons_self s0 rest)).symm)
    · rw [if_neg hlen] at hp; cases hp

/-- Each pair of a mapped-sorted list and its source list is a
permutation. -/
theorem zip_map_sort_perm (s : List (List Score)) :
    ∀ p ∈ (s.map (sortByDesc Score.score)).zip s, p.1.Perm p.2 := by
  induction s with
  | nil => intro p hp; simp at hp
  | cons a t ih =>
    intro p hp
    rw [List.map_cons, List.zip_cons_cons] at hp
    rcases List.mem_cons.mp hp with rfl | hpt
    · exact sortByDesc_perm Score.score a
    · exact ih p hpt

/-- C4 counterexample: the input whose single score list is empty (with the
matching default weight vector) passes validation and constructs a `Fusion`
instance — no `ValidationError` is raised. -/
theorem c4_counterexample :
    mkFusionDefault [([] : List Score)] = some ⟨[[]], [1], [[]]⟩ ∧
    ([] : List Score) ∈ [([] : List Score)] := by
  decide

/-- C4 (amended): construction rejects an empty score list exactly when the
input also contains a non-empty one — the id-set size assert then fails —
while an input all of whose score lists are empty passes validation. -/
theorem c4_empty_list_amended (s : List (List Score)) (w : List ℚ)
    (h1 : ∃ a ∈ s, a = ([] : List Score))
    (h2 : ∃ b ∈ s, b ≠ ([] : List Score)) :
    mkFusion s w = none := by
  rcases h1 with ⟨a, ha, rfl⟩
  rcases h2 with ⟨b, hb, hbne⟩
  by_contra hson
  rcases Option.ne_none_iff_exists'.mp hson with ⟨f, hf⟩
  rcases mkFusion_inv s w f hf with ⟨_, _, _, _, _, _, hperm⟩
  have hids : f.rankings.headD [] = [] := (hperm [] ha).symm.eq_nil
  have hbperm := hperm b hb
  rw [hids] at hbperm
  have : b.map Score.id = [] := hbperm.eq_nil
  exact hbne (List.map_eq_nil_iff.mp this)

/-- C4 witness: a mixed input (one empty list, one non-empty) is indeed
rejected. -/
theorem c4_empty_list_amended_witness :
    mkFusion [([] : List Score), [⟨"A", 1, 0⟩]] [1, 1] = none :=
  c4_empty_list_amended [([] : List Score), [⟨"A", 1, 0⟩]] [1, 1]
    ⟨[], by decide, rfl⟩ ⟨[⟨"A", 1, 0⟩], by decide, by decide⟩

/-- C5: whenever two score lists of the input fail to carry the same id
multiset (an id present in one and absent from the other), or any list
carries a duplicated id, construction fails and no fusion output exists for
the query. -/
theorem c5_mismatched_ids_rejected (s : List (List Score)) (w : List ℚ)
    (h : (∃ a ∈ s, ∃ b ∈ s, ¬ (a.map Score.id).Perm (b.map Score.id)) ∨
         (∃ a ∈ s, ¬ (a.map Score.id).Nodup)) :
    mkFusion s w = none := by
  by_contra hson
  rcases Option.ne_none_iff_exists'.mp hson with ⟨f, hf⟩
  rcases mkFusion_inv s w f hf with ⟨_, _, _, _, _, hnodup, hperm⟩
  rcases h with ⟨a, ha, b, hb, hnp⟩ | ⟨a, ha, hnd⟩
  · exact hnp ((hperm a ha).trans (hperm b hb).symm)
  · exact hnd ((hperm a ha).nodup_iff.mpr hnodup)

/-- C5 witness: two singleton lists with different ids are rejected. -/
theorem c5_mismatched_ids_rejected_witness :
    mkFusion [[⟨"A", 1, 0⟩], [⟨"B", 1, 0⟩]] [1, 1] = none :=
  c5_mismatched_ids_rejected [[⟨"A", 1, 0⟩], [⟨"B", 1, 0⟩]] [1, 1]
    (Or.inl ⟨[⟨"A", 1, 0⟩], by decide, [⟨"B", 1, 0⟩], by decide, by decide⟩)

/-- C6 counterexample: constructing a `Fusion` reorders the caller's score
array in place — after construction the caller's list is no longer in its
original order. -/
theorem c6_counterexample :
    constructorScores [[⟨"A", 1, 0⟩, ⟨"B", 2, 0⟩]] [1] =
      some [[⟨"B", 2, 0⟩, ⟨"A", 1, 0⟩]] ∧
    [[(⟨"B", 2, 0⟩ : Score), ⟨"A", 1, 0⟩]] ≠ [[(⟨"A", 1, 0⟩ : Score), ⟨"B", 2, 0⟩]] := by
  decide

/-- C6 (amended): construction sorts each caller score array in place,
descending by score — the arrays keep exactly their elements (as a
permutation) but possibly in a new order; the four fusion methods read the
instance without further mutation (in this embedding they are functions of
the instance state). -/
theorem c6_constructor_mutation_amended (s : List (List Score)) (w : List ℚ)
    (l : List (List Score)) (h : constructorScores s w = some l) :
    l = s.map (sortByDesc Score.score) ∧
    (∀ p ∈ l.zip s, p.1.Perm p.2) ∧
    (∀ arr ∈ l, arr.Pairwise (fun a b => b.score ≤ a.score)) := by
  rcases Option.map_eq_some'.mp h with ⟨p, hp, rfl⟩
  cases hs : s with
  | nil => rw [hs, validateInput] at hp; cases hp
  | cons s0 rest =>
    subst hs
    rw [validateInput] at hp
    by_cases hlen : (s0 :: rest).length = w.length
    · rw [if_pos hlen] at hp
      rcases checkAll_inv _ _ _ hp with ⟨e1, _, _⟩
      refine ⟨e1, ?_, ?_⟩
      · rw [e1]; exact zip_map_sort_perm _
      · intro arr harr
        rw [e1] at harr
        rcases List.mem_map.mp harr with ⟨a, _, rfl⟩
        exact sortByDesc_pairwise Score.score a
    · rw [if_neg hlen] at hp; cases hp

/-- C6 amended witness: the reordered caller array is the in-place sort of
the original, a permutation of it, and sorted descending. -/
theorem c6_constructor_mutation_amended_witness :
    [[(⟨"B", 2, 0⟩ : Score), ⟨"A", 1, 0⟩]] =
      [[(⟨"A", 1, 0⟩ : Score), ⟨"B", 2, 0⟩]].map (sortByDesc Score.score) ∧
    (∀ p ∈ ([[(⟨"B", 2, 0⟩ : Score), ⟨"A", 1, 0⟩]]).zip
        [[(⟨"A", 1, 0⟩ : Score), ⟨"B", 2, 0⟩]], p.1.Perm p.2) ∧
    (∀ arr ∈ [[(⟨"B", 2, 0⟩ : Score), ⟨"A", 1, 0⟩]],
      arr.Pairwise (fun a b => b.score ≤ a.score)) :=
  c6_constructor_mutation_amended [[⟨"A", 1, 0⟩, ⟨"B", 2, 0⟩]] [1]
    [[⟨"B", 2, 0⟩, ⟨"A", 1, 0⟩]] (by decide)

/-- C10: a constructed instance satisfies the cached-rankings invariant —
`rankings[i][j]` is `scores[i][j].id` with every `scores[i]` sorted
descending by score — and keeps `weights` as passed.  The four methods are
functions of this immutable state in the embedding (the JS methods never
assign to the fields), so repeated calls with equal arguments return equal
results. -/
theorem c10_instance_invariant (s : List (List Score)) (w : List ℚ) (f : Fusion)
    (h : mkFusion s w = some f) :
    f.rankings = f.scores.map (List.map Score.id) ∧
    (∀ arr ∈ f.scores, arr.Pairwise (fun a b => b.score ≤ a.score)) ∧
    f.weights = w := by
  rcases mkFusion_inv s w f h with ⟨_, _, hscores, hw, hrank, _, _⟩
  refine ⟨hrank, ?_, hw⟩
  intro arr harr
  rw [hscores] at harr
  rcases List.mem_map.mp harr with ⟨a, _, rfl⟩
  exact sortByDesc_pairwise Score.score a

/-- C10 witness: the invariant holds on the tie-demo instance. -/
theorem c10_instance_invariant_witness :
    tieFusion.rankings = tieFusion.scores.map (List.map Score.id) ∧
    (∀ arr ∈ tieFusion.scores, arr.Pairwise (fun a b => b.score ≤ a.score)) ∧
    tieFusion.weights = [1, 1] :=
  c10_instance_invariant tieScores [1, 1] tieFusion (by decide)

/-- C2: every validated `Fusion` instance yields, from each of the four
methods, a permutation of the shared id set (here represented by
`rankings[0]`, which every input list's id multiset is a permutation of):
nothing added, dropped, or duplicated. -/
theorem c2_outputs_are_permutations (s : List (List Score)) (w : List ℚ) (f : Fusion)
    (h : mkFusion s w = some f) (sqrt : ℚ → ℚ) (k : ℚ) :
    (f.rankings.headD []).Nodup ∧
    (∀ a ∈ s, (a.map Score.id).Perm (f.rankings.headD [])) ∧
    f.borda.Perm (f.rankings.headD []) ∧ f.borda.Nodup ∧
    (f.dbsf sqrt).Perm (f.rankings.headD []) ∧ (f.dbsf sqrt).Nodup ∧
    f.rsf.Perm (f.rankings.headD []) ∧ f.rsf.Nodup ∧
    (f.rrfCore k).Perm (f.rankings.headD []) ∧ (f.rrfCore k).Nodup ∧
    (0 < k → f.rrf k = some (f.rrfCore k)) := by
  rcases mkFusion_inv s w f h with ⟨_, _, _, _, hrank, hnodup, hperm⟩
  have hheadAll : ∀ L : List (List Score),
      (L.headD []).map Score.id = (L.map (List.map Score.id)).headD [] := by
    intro L; cases L <;> rfl
  have hhead : (f.scores.headD []).map Score.id = f.rankings.headD [] := by
    rw [hrank]; exact hheadAll f.scores
  have hb : f.borda.Perm (f.rankings.headD []) := by
    have h1 := entries_sorted_fst_perm (bordaAcc f)
    rw [bordaAcc_keys f] at h1
    exact h1
  have hd : (f.dbsf sqrt).Perm (f.rankings.headD []) := by
    have h1 := entries_sorted_fst_perm (dbsfAcc f sqrt)
    rw [dbsfAcc_keys f sqrt, hhead] at h1
    exact h1
  have hrs : f.rsf.Perm (f.rankings.headD []) := by
    have h1 := entries_sorted_fst_perm (rsfAcc f)
    rw [rsfAcc_keys f, hhead] at h1
    exact h1
  have hrr : (f.rrfCore k).Perm (f.rankings.headD []) := by
    have h1 := entries_sorted_fst_perm (rrfAcc f k)
    rw [rrfAcc_keys f k] at h1
    exact h1
  exact ⟨hnodup, hperm, hb, hb.nodup_iff.mpr hnodup, hd, hd.nodup_iff.mpr hnodup,
    hrs, hrs.nodup_iff.mpr hnodup, hrr, hrr.nodup_iff.mpr hnodup,
    fun hk => by rw [Fusion.rrf, if_pos hk]⟩

/-- C2 witness: the permutation guarantees, instantiated on a concrete
validated two-signal input. -/
theorem c2_outputs_are_permutations_witness :
    (tieFusion.rankings.headD []).Nodup ∧
    (∀ a ∈ tieScores, (a.map Score.id).Perm (tieFusion.rankings.headD [])) ∧
    tieFusion.borda.Perm (tieFusion.rankings.headD []) ∧ tieFusion.borda.Nodup ∧
    (tieFusion.dbsf (fun _ => 0)).Perm (tieFusion.rankings.headD []) ∧
    (tieFusion.dbsf (fun _ => 0)).Nodup ∧
    tieFusion.rsf.Perm (tieFusion.rankings.headD []) ∧ tieFusion.rsf.Nodup ∧
    (tieFusion.rrfCore 60).Perm (tieFusion.rankings.headD []) ∧
    (tieFusion.rrfCore 60).Nodup ∧
    (0 < (60 : ℚ) → tieFusion.rrf 60 = some (tieFusion.rrfCore 60)) :=
  c2_outputs_are_permutations tieScores [1, 1] tieFusion (by decide) (fun _ => 0) 60

/-- C7: a validated input containing a degenerate signal — every score in
some list equal to a constant, giving the list zero variance and zero range
— still lets `dbsf` and `rsf` return a permutation of the shared id set
without failing.  (In `ℚ` the zero-divisor normalisations contribute `0`,
matching the spec's recommended policy; the permutation shape is
independent of the accumulated values either way.) -/
theorem c7_degenerate_signal_safe (s : List (List Score)) (w : List ℚ) (f : Fusion)
    (h : mkFusion s w = some f) (arr : List Score) (ha : arr ∈ s) (c : ℚ)
    (hdeg : ∀ e ∈ arr, e.score = c) (sqrt : ℚ → ℚ) :
    (f.dbsf sqrt).Perm (f.rankings.headD []) ∧ (f.dbsf sqrt).Nodup ∧
    f.rsf.Perm (f.rankings.headD []) ∧ f.rsf.Nodup := by
  rcases mkFusion_inv s w f h with ⟨_, _, _, _, hrank, hnodup, _⟩
  have hheadAll : ∀ L : List (List Score),
      (L.headD []).map Score.id = (L.map (List.map Score.id)).headD [] := by
    intro L; cases L <;> rfl
  have hhead : (f.scores.headD []).map Score.id = f.rankings.headD [] := by
    rw [hrank]; exact hheadAll f.scores
  have hd : (f.dbsf sqrt).Perm (f.rankings.headD []) := by
    have h1 := entries_sorted_fst_perm (dbsfAcc f sqrt)
    rw [dbsfAcc_keys f sqrt, hhead] at h1
    exact h1
  have hrs : f.rsf.Perm (f.rankings.headD []) := by
    have h1 := entries_sorted_fst_perm (rsfAcc f)
    rw [rsfAcc_keys f, hhead] at h1
    exact h1
  exact ⟨hd, hd.nodup_iff.mpr hnodup, hrs, hrs.nodup_iff.mpr hnodup⟩

/-- C7 witness: a single-signal input with all scores equal to 5 is
validated and both score-based methods return a permutation of its ids. -/
theorem c7_degenerate_signal_safe_witness :
    (degFusion.dbsf (fun _ => 0)).Perm (degFusion.rankings.headD []) ∧
    (degFusion.dbsf (fun _ => 0)).Nodup ∧
    degFusion.rsf.Perm (degFusion.rankings.headD []) ∧ degFusion.rsf.Nodup :=
  c7_degenerate_signal_safe degScores [1] degFusion (by decide)
    [⟨"A", 5, 0⟩, ⟨"B", 5, 0⟩] (by decide) 5 (by decide) (fun _ => 0)

/-- C3 counterexample: on a validated input where Borda scores tie at
3 = 3, the output lists the lexically larger id `B` before `A` — not
ascending lexical order.  The second scenario shows the actual tie rule:
with array-index-like ids, `Object.entries` enumerates `"1"` before `"2"`
even though `"2"` leads the first signal's ranking and was created first,
so the tied output follows enumeration order, not creation order. -/
theorem c3_tie_break_counterexample :
    mkFusion tieScores [1, 1] = some tieFusion ∧
    bordaAcc tieFusion = [("B", 3), ("A", 3)] ∧
    tieFusion.borda = ["B", "A"] ∧
    (["B", "A"] : List String) ≠ ["A", "B"] ∧
    mkFusion numScores [1, 1] = some numFusion ∧
    bordaAcc numFusion = [("2", 3), ("1", 3)] ∧
    numFusion.borda = ["1", "2"] ∧
    (["1", "2"] : List String) ≠ ["2", "1"] := by
  refine ⟨by decide, ?_, ?_, by decide, by decide, ?_, ?_, by decide⟩
  · norm_num [bordaAcc, bump, List.enum, List.enumFrom, List.foldl, tieFusion]
  · norm_num [Fusion.borda, bordaAcc, bump, List.enum, List.enumFrom, List.foldl,
      sortByDesc, insertByDesc, tieFusion, jsEntries, sortByIdx, insertByIdx,
      List.filter_cons, List.filter_nil,
      show canonicalIndex "A" = none from rfl,
      show canonicalIndex "B" = none from rfl]
  · norm_num [bordaAcc, bump, List.enum, List.enumFrom, List.foldl, numFusion]
  · norm_num [Fusion.borda, bordaAcc, bump, List.enum, List.enumFrom, List.foldl,
      sortByDesc, insertByDesc, numFusion, jsEntries, sortByIdx, insertByIdx,
      List.filter_cons, List.filter_nil,
      show canonicalIndex "1" = some 1 from rfl,
      show canonicalIndex "2" = some 2 from rfl]

/-- C3 (amended): every method's output is the id projection of the
`Object.entries` enumeration of its accumulator, stably sorted descending
by accumulated score: adjacent accumulated scores never increase, and
within any one accumulated-score value the output preserves the
enumeration order — array-index-like ids first in ascending numeric order,
then the remaining ids in creation order (the first signal's order).  The
tie-break is deterministic, but it is this enumeration order, not
ascending lexical order of id. -/
theorem c3_descending_stable_ties_amended (f : Fusion) (sqrt : ℚ → ℚ) (k : ℚ) :
    (f.borda = (sortByDesc Prod.snd (jsEntries (bordaAcc f))).map Prod.fst ∧
     (sortByDesc Prod.snd (jsEntries (bordaAcc f))).Pairwise (fun a b => b.2 ≤ a.2) ∧
     ∀ q : ℚ, (sortByDesc Prod.snd (jsEntries (bordaAcc f))).filter (fun a => decide (a.2 = q)) =
       (jsEntries (bordaAcc f)).filter (fun a => decide (a.2 = q))) ∧
    (f.dbsf sqrt = (sortByDesc Prod.snd (jsEntries (dbsfAcc f sqrt))).map Prod.fst ∧
     (sortByDesc Prod.snd (jsEntries (dbsfAcc f sqrt))).Pairwise (fun a b => b.2 ≤ a.2) ∧
     ∀ q : ℚ, (sortByDesc Prod.snd (jsEntries (dbsfAcc f sqrt))).filter (fun a => decide (a.2 = q)) =
       (jsEntries (dbsfAcc f sqrt)).filter (fun a => decide (a.2 = q))) ∧
    (f.rrfCore k = (sortByDesc Prod.snd (jsEntries (rrfAcc f k))).map Prod.fst ∧
     (sortByDesc Prod.snd (jsEntries (rrfAcc f k))).Pairwise (fun a b => b.2 ≤ a.2) ∧
     ∀ q : ℚ, (sortByDesc Prod.snd (jsEntries (rrfAcc f k))).filter (fun a => decide (a.2 = q)) =
       (jsEntries (rrfAcc f k)).filter (fun a => decide (a.2 = q))) ∧
    (f.rsf = (sortByDesc Prod.snd (jsEntries (rsfAcc f))).map Prod.fst ∧
     (sortByDesc Prod.snd (jsEntries (rsfAcc f))).Pairwise (fun a b => b.2 ≤ a.2) ∧
     ∀ q : ℚ, (sortByDesc Prod.snd (jsEntries (rsfAcc f))).filter (fun a => decide (a.2 = q)) =
       (jsEntries (rsfAcc f)).filter (fun a => decide (a.2 = q))) :=
  ⟨⟨rfl, sortByDesc_pairwise Prod.snd _, fun q => sortByDesc_filter Prod.snd _ q⟩,
   ⟨rfl, sortByDesc_pairwise Prod.snd _, fun q => sortByDesc_filter Prod.snd _ q⟩,
   ⟨rfl, sortByDesc_pairwise Prod.snd _, fun q => sortByDesc_filter Prod.snd _ q⟩,
   ⟨rfl, sortByDesc_pairwise Prod.snd _, fun q => sortByDesc_filter Prod.snd _ q⟩⟩

/-- C8: the reformatter's output has one slot per fused id; the slot at
fused position `i` holds a record with that id, synthetic score `N - i`,
and the rank copied from the first matching reference entry — or no record
(a silently skipped sparse slot, `none`) when no reference entry matches. -/
theorem c8_formatFused_spec (inArr : List String) (orig : List RankedScore) :
    (formatFused inArr orig).length = inArr.length ∧
    ∀ i : ℕ, i < inArr.length →
      (formatFused inArr orig).getD i none =
        (orig.find? (fun e => e.id = inArr.getD i "")).map
          (fun m => ⟨inArr.getD i "", (inArr.length : ℚ) - (i : ℚ), m.rank⟩) := by
  constructor
  · simp [formatFused]
  · intro i hi
    have h1 : (formatFused inArr orig).getD i none =
        ((formatFused inArr orig)[i]?).getD none := by
      rw [List.getD_eq_getElem?_getD]
    have h2 : inArr.getD i "" = (inArr[i]?).getD "" := by
      rw [List.getD_eq_getElem?_getD]
    rw [h1, h2, List.getElem?_eq_getElem hi]
    have h3 : (formatFused inArr orig)[i]? =
        some ((orig.find? (fun e => e.id = inArr[i])).map
          (fun m => ⟨inArr[i], (inArr.length : ℚ) - (i : ℚ), m.rank⟩)) := by
      rw [formatFused, List.getElem?_map, List.getElem?_enum,
        List.getElem?_eq_getElem hi]
      rfl
    rw [h3]
    rfl

/-- C8 witness: evaluated on a two-id fused list where the first id matches
a reference entry (rank 7 copied, score `2 - 0 = 2`) and the second does
not (slot dropped). -/
theorem c8_formatFused_spec_witness :
    (formatFused ["A", "X"] [⟨"A", 9, 7⟩]).length = 2 ∧
    (formatFused ["A", "X"] [⟨"A", 9, 7⟩]).getD 0 none =
      some ⟨"A", 2, 7⟩ ∧
    (formatFused ["A", "X"] [⟨"A", 9, 7⟩]).getD 1 none = none := by
  have h := c8_formatFused_spec ["A", "X"] [⟨"A", 9, 7⟩]
  refine ⟨h.1, ?_, ?_⟩
  · have h0 := h.2 0 (by decide)
    rw [h0]
    norm_num [List.find?]
  · have h1 := h.2 1 (by decide)
    rw [h1]
    simp [List.find?]

/-- C9 counterexample: a non-empty `SearchResult` whose single entry has
`rank = L = 1` gives every relevance gain the value `1`, so every DCG
numerator `g² - 1` is `0` and `DCG = IDCG = 0` — the predicted order is
trivially descending, yet the NDCG is not `1.0` (the source computes
`0/0 = NaN`; in the rational model the division yields `0`). -/
theorem c9_counterexample :
    (predictedRel ⟨"q", [⟨"A", 1, 1⟩]⟩).Pairwise
      (fun a b => b.relevance ≤ a.relevance) ∧
    ([⟨"A", 1, 1⟩] : List RankedScore) ≠ [] ∧
    ndcg log2Stub [⟨"q", [⟨"A", 1, 1⟩]⟩] = [⟨"q", 0⟩] ∧
    (⟨"q", 0⟩ : NdcgResult) ≠ ⟨"q", 1⟩ := by
  refine ⟨by simp [predictedRel], by simp, ?_, by simp⟩
  norm_num [ndcg, predictedRel, dcgVal, calcDCG, sortByDesc, insertByDesc,
    round4, log2Stub, List.enum, List.enumFrom, List.foldl]

/-- C9 (amended): for a `SearchResult` whose predicted order already lists
the entries in descending order of relevance gain and whose IDCG is
non-zero, the NDCG is exactly `1`: the stable sort fixes the already-sorted
gain list, so DCG and IDCG are the same sum. -/
theorem c9_ndcg_perfect_order_amended (log2 : ℕ → ℚ) (sr : SearchResult)
    (hsorted : (predictedRel sr).Pairwise (fun a b => b.relevance ≤ a.relevance))
    (hnz : dcgVal log2 (predictedRel sr) ≠ 0) :
    ndcg log2 [sr] = [⟨sr.qid, 1⟩] := by
  have hgt : sortByDesc Relevance.relevance (predictedRel sr) = predictedRel sr :=
    sortByDesc_of_pairwise Relevance.relevance (predictedRel sr) hsorted
  show [(⟨sr.qid, round4 (dcgVal log2 (predictedRel sr) /
      dcgVal log2 (sortByDesc Relevance.relevance (predictedRel sr)))⟩ : NdcgResult)] =
    [⟨sr.qid, 1⟩]
  rw [hgt, div_self hnz]
  have hr1 : round4 1 = 1 := by norm_num [round4, round_eq]
  rw [hr1]

/-- C9 amended witness: a two-entry result in perfect order (gains 2, 1)
has non-zero IDCG and NDCG exactly 1 (with a concrete stand-in `log2`). -/
theorem c9_ndcg_perfect_order_amended_witness :
    ((predictedRel ⟨"q", [⟨"A", 2, 1⟩, ⟨"B", 1, 2⟩]⟩).Pairwise
      (fun a b => b.relevance ≤ a.relevance) ∧
     dcgVal log2Stub (predictedRel ⟨"q", [⟨"A", 2, 1⟩, ⟨"B", 1, 2⟩]⟩) ≠ 0) ∧
    ndcg log2Stub [⟨"q", [⟨"A", 2, 1⟩, ⟨"B", 1, 2⟩]⟩] = [⟨"q", 1⟩] :=
  ⟨⟨by norm_num [predictedRel, List.pairwise_cons],
    by norm_num [dcgVal, calcDCG, predictedRel, log2Stub, List.enum,
      List.enumFrom, List.foldl]⟩,
   c9_ndcg_perfect_order_amended log2Stub ⟨"q", [⟨"A", 2, 1⟩, ⟨"B", 1, 2⟩]⟩
     (by norm_num [predictedRel, List.pairwise_cons])
     (by norm_num [dcgVal, calcDCG, predictedRel, log2Stub, List.enum,
       List.enumFrom, List.foldl])⟩

/-- Clearing the two positive denominators turns a comparison of sums of
two quotients into a linear comparison. -/
theorem div_pair_lt (s1 s2 a b c d : ℚ) (hs1 : 0 < s1) (hs2 : 0 < s2)
    (h : (d - b) * s1 < (a - c) * s2) : c / s1 + d / s2 < a / s1 + b / s2 := by
  have h1 : (d - b) / s2 < (a - c) / s1 := by
    rw [div_lt_div_iff hs2 hs1]
    linarith
  have e1 : (a - c) / s1 = a / s1 - c / s1 := sub_div a c s1
  have e2 : (d - b) / s2 = d / s2 - b / s2 := sub_div d b s2
  linarith

/-- C1: on the literal two-signal, five-id input with default weights, the
four fusion methods return exactly the orderings the test suite records.
`Math.sqrt` enters only through its values at the two signal variances; the
hypotheses assume rational interval bounds around those values that are far
looser than double precision, and every `dbsf` comparison margin exceeds
them. -/
theorem c1_literal_scenario (sqrt : ℚ → ℚ)
    (h1l : 577/10000 ≤ sqrt demoVar1) (h1u : sqrt demoVar1 ≤ 578/10000)
    (h2l : 393/10000 ≤ sqrt demoVar2) (h2u : sqrt demoVar2 ≤ 394/10000) :
    mkFusionDefault demoScores = some demoFusion ∧
    demoFusion.borda = ["P1", "P3", "P4", "P2", "P5"] ∧
    demoFusion.dbsf sqrt = ["P1", "P3", "P4", "P2", "P5"] ∧
    demoFusion.rrf 60 = some ["P3", "P1", "P4", "P5", "P2"] ∧
    demoFusion.rsf = ["P1", "P3", "P4", "P2", "P5"] := by
  refine ⟨?_, ?_, ?_, ?_, ?_⟩
  · norm_num [mkFusionDefault, mkFusion, validateInput, checkAll, uniqueFirst,
      sortByDesc, insertByDesc, demoScores, demoFusion, List.contains, List.all,
      List.filter_cons, List.filter_nil, List.replicate]
    simp
  · norm_num [Fusion.borda, bordaAcc, bump, List.enum, List.enumFrom, List.foldl,
      sortByDesc, insertByDesc, demoFusion, jsEntries, sortByIdx, insertByIdx,
      List.filter_cons, List.filter_nil,
      show canonicalIndex "P1" = none from rfl,
      show canonicalIndex "P2" = none from rfl,
      show canonicalIndex "P3" = none from rfl,
      show canonicalIndex "P4" = none from rfl,
      show canonicalIndex "P5" = none from rfl]
    all_goals simp [List.filter_cons, List.filter_nil, sortByIdx, insertByIdx,
      show canonicalIndex "P1" = none from rfl,
      show canonicalIndex "P2" = none from rfl,
      show canonicalIndex "P3" = none from rfl,
      show canonicalIndex "P4" = none from rfl,
      show canonicalIndex "P5" = none from rfl]
    all_goals norm_num [insertByDesc, insertByIdx]
  · obtain ⟨s1, hs1⟩ : ∃ x, x = sqrt demoVar1 := ⟨_, rfl⟩
    obtain ⟨s2, hs2⟩ : ∃ x, x = sqrt demoVar2 := ⟨_, rfl⟩
    rw [← hs1] at h1l h1u
    rw [← hs2] at h2l h2u
    have hpos1 : 0 < s1 := lt_of_lt_of_le (by norm_num) h1l
    have hpos2 : 0 < s2 := lt_of_lt_of_le (by norm_num) h2l
    have hacc : dbsfAcc demoFusion sqrt =
        [("P4", 1893/25000/s1 + -(2441/50000)/s2),
         ("P1", 2771/50000/s1 + -(39/12500)/s2),
         ("P2", -(197/25000)/s1 + -(76/3125)/s2),
         ("P3", -(2549/50000)/s1 + 1717/25000/s2),
         ("P5", -(1807/25000)/s1 + 379/50000/s2)] := by
      rw [hs1, hs2]
      norm_num [dbsfAcc, bump, List.enum, List.enumFrom, List.foldl, demoFusion,
        demoVar1, demoVar2]
      simp
    have hje : jsEntries
        [("P4", 1893/25000/s1 + -(2441/50000)/s2),
         ("P1", 2771/50000/s1 + -(39/12500)/s2),
         ("P2", -(197/25000)/s1 + -(76/3125)/s2),
         ("P3", -(2549/50000)/s1 + 1717/25000/s2),
         ("P5", -(1807/25000)/s1 + 379/50000/s2)] =
        [("P4", 1893/25000/s1 + -(2441/50000)/s2),
         ("P1", 2771/50000/s1 + -(39/12500)/s2),
         ("P2", -(197/25000)/s1 + -(76/3125)/s2),
         ("P3", -(2549/50000)/s1 + 1717/25000/s2),
         ("P5", -(1807/25000)/s1 + 379/50000/s2)] := by
      refine jsEntries_of_not_index _ ?_
      intro p hp
      fin_cases hp <;> rfl
    have h31 : -(2549/50000)/s1 + 1717/25000/s2 < 2771/50000/s1 + -(39/12500)/s2 :=
      div_pair_lt s1 s2 _ _ _ _ hpos1 hpos2 (by linarith)
    have h41 : 1893/25000/s1 + -(2441/50000)/s2 < 2771/50000/s1 + -(39/12500)/s2 :=
      div_pair_lt s1 s2 _ _ _ _ hpos1 hpos2 (by linarith)
    have h21 : -(197/25000)/s1 + -(76/3125)/s2 < 2771/50000/s1 + -(39/12500)/s2 :=
      div_pair_lt s1 s2 _ _ _ _ hpos1 hpos2 (by linarith)
    have h51 : -(1807/25000)/s1 + 379/50000/s2 < 2771/50000/s1 + -(39/12500)/s2 :=
      div_pair_lt s1 s2 _ _ _ _ hpos1 hpos2 (by linarith)
    have h43 : 1893/25000/s1 + -(2441/50000)/s2 < -(2549/50000)/s1 + 1717/25000/s2 :=
      div_pair_lt s1 s2 _ _ _ _ hpos1 hpos2 (by linarith)
    have h23 : -(197/25000)/s1 + -(76/3125)/s2 < -(2549/50000)/s1 + 1717/25000/s2 :=
      div_pair_lt s1 s2 _ _ _ _ hpos1 hpos2 (by linarith)
    have h53 : -(1807/25000)/s1 + 379/50000/s2 < -(2549/50000)/s1 + 1717/25000/s2 :=
      div_pair_lt s1 s2 _ _ _ _ hpos1 hpos2 (by linarith)
    have h24 : -(197/25000)/s1 + -(76/3125)/s2 < 1893/25000/s1 + -(2441/50000)/s2 :=
      div_pair_lt s1 s2 _ _ _ _ hpos1 hpos2 (by linarith)
    have h54 : -(1807/25000)/s1 + 379/50000/s2 < 1893/25000/s1 + -(2441/50000)/s2 :=
      div_pair_lt s1 s2 _ _ _ _ hpos1 hpos2 (by linarith)
    have h52 : -(1807/25000)/s1 + 379/50000/s2 < -(197/25000)/s1 + -(76/3125)/s2 :=
      div_pair_lt s1 s2 _ _ _ _ hpos1 hpos2 (by linarith)
    have hperm : (jsEntries (dbsfAcc demoFusion sqrt)).Perm
        [("P1", 2771/50000/s1 + -(39/12500)/s2),
         ("P3", -(2549/50000)/s1 + 1717/25000/s2),
         ("P4", 1893/25000/s1 + -(2441/50000)/s2),
         ("P2", -(197/25000)/s1 + -(76/3125)/s2),
         ("P5", -(1807/25000)/s1 + 379/50000/s2)] := by
      rw [hacc, hje]
      exact (List.Perm.swap _ _ _).trans
        (List.Perm.cons _ ((List.Perm.cons _ (List.Perm.swap _ _ _)).trans
          (List.Perm.swap _ _ _)))
    have hstrict : List.Pairwise (fun a b => Prod.snd b < Prod.snd a)
        [("P1", 2771/50000/s1 + -(39/12500)/s2),
         ("P3", -(2549/50000)/s1 + 1717/25000/s2),
         ("P4", 1893/25000/s1 + -(2441/50000)/s2),
         ("P2", -(197/25000)/s1 + -(76/3125)/s2),
         ("P5", -(1807/25000)/s1 + 379/50000/s2)] := by
      refine List.Pairwise.cons ?_ (List.Pairwise.cons ?_ (List.Pairwise.cons ?_
        (List.Pairwise.cons ?_ (List.Pairwise.cons ?_ List.Pairwise.nil))))
      · intro x hx
        fin_cases hx
        · exact h31
        · exact h41
        · exact h21
        · exact h51
      · intro x hx
        fin_cases hx
        · exact h43
        · exact h23
        · exact h53
      · intro x hx
        fin_cases hx
        · exact h24
        · exact h54
      · intro x hx
        fin_cases hx
        · exact h52
      · intro x hx
        fin_cases hx
    have hsorteq : sortByDesc Prod.snd (jsEntries (dbsfAcc demoFusion sqrt)) =
        [("P1", 2771/50000/s1 + -(39/12500)/s2),
         ("P3", -(2549/50000)/s1 + 1717/25000/s2),
         ("P4", 1893/25000/s1 + -(2441/50000)/s2),
         ("P2", -(197/25000)/s1 + -(76/3125)/s2),
         ("P5", -(1807/25000)/s1 + 379/50000/s2)] :=
      eq_of_perm_sorted_strict Prod.snd _ _
        ((sortByDesc_perm Prod.snd _).trans hperm)
        (sortByDesc_pairwise Prod.snd _) hstrict
    show (sortByDesc Prod.snd (jsEntries (dbsfAcc demoFusion sqrt))).map Prod.fst = _
    rw [hsorteq]
    rfl
  · norm_num [Fusion.rrf, Fusion.rrfCore, rrfAcc, bump, List.enum, List.enumFrom,
      List.foldl, sortByDesc, insertByDesc, demoFusion, jsEntries, sortByIdx,
      insertByIdx, List.filter_cons, List.filter_nil,
      show canonicalIndex "P1" = none from rfl,
      show canonicalIndex "P2" = none from rfl,
      show canonicalIndex "P3" = none from rfl,
      show canonicalIndex "P4" = none from rfl,
      show canonicalIndex "P5" = none from rfl]
    all_goals simp [List.filter_cons, List.filter_nil, sortByIdx, insertByIdx,
      show canonicalIndex "P1" = none from rfl,
      show canonicalIndex "P2" = none from rfl,
      show canonicalIndex "P3" = none from rfl,
      show canonicalIndex "P4" = none from rfl,
      show canonicalIndex "P5" = none from rfl]
    all_goals norm_num [insertByDesc, insertByIdx]
  · norm_num [Fusion.rsf, rsfAcc, bump, jsMaxScore, jsMinScore, List.enum,
      List.enumFrom, List.foldl, sortByDesc, insertByDesc, demoFusion, jsEntries,
      sortByIdx, insertByIdx, List.filter_cons, List.filter_nil,
      show canonicalIndex "P1" = none from rfl,
      show canonicalIndex "P2" = none from rfl,
      show canonicalIndex "P3" = none from rfl,
      show canonicalIndex "P4" = none from rfl,
      show canonicalIndex "P5" = none from rfl]
    all_goals simp [List.filter_cons, List.filter_nil, sortByIdx, insertByIdx,
      show canonicalIndex "P1" = none from rfl,
      show canonicalIndex "P2" = none from rfl,
      show canonicalIndex "P3" = none from rfl,
      show canonicalIndex "P4" = none from rfl,
      show canonicalIndex "P5" = none from rfl]
    all_goals norm_num [insertByDesc, insertByIdx]

/-- C1 witness: a concrete rational `sqrt` satisfying the interval bounds
yields exactly the recorded orderings. -/
theorem c1_literal_scenario_witness :
    (577/10000 ≤ sqrtStub demoVar1 ∧ sqrtStub demoVar1 ≤ 578/10000 ∧
     393/10000 ≤ sqrtStub demoVar2 ∧ sqrtStub demoVar2 ≤ 394/10000) ∧
    (mkFusionDefault demoScores = some demoFusion ∧
     demoFusion.borda = ["P1", "P3", "P4", "P2", "P5"] ∧
     demoFusion.dbsf sqrtStub = ["P1", "P3", "P4", "P2", "P5"] ∧
     demoFusion.rrf 60 = some ["P3", "P1", "P4", "P5", "P2"] ∧
     demoFusion.rsf = ["P1", "P3", "P4", "P2", "P5"]) :=
  ⟨⟨by norm_num [sqrtStub], by norm_num [sqrtStub],
    by norm_num [sqrtStub, demoVar1, demoVar2],
    by norm_num [sqrtStub, demoVar1, demoVar2]⟩,
   c1_literal_scenario sqrtStub (by norm_num [sqrtStub])
     (by norm_num [sqrtStub])
     (by norm_num [sqrtStub, demoVar1, demoVar2])
     (by norm_num [sqrtStub, demoVar1, demoVar2])⟩
